import Mathlib

/-!
# WhaleWatcher — verification of the ingestion/normalization/metrics pipeline

Shallow embedding of the core pipeline of the WhaleWatcher repository:
* `src/data/collector.py` — paginated fetch with duplicate detection
  (`get_wallet_transactions`),
* `src/data/processor.py` — normalization and daily aggregation
  (`process_wallet_transactions`),
* `src/data/metrics.py` — wallet metrics (ROI, trader classification,
  volatility, drawdown, summary upsert).

Python floats are modelled as `ℚ`; pandas "NaN"/missing values as `Option`;
file contents as explicit arguments; the wall clock (`datetime.now()`) as an
explicit `now : ℕ` argument.
-/

namespace WhaleWatcher

/-! ## Collector (`src/data/collector.py`) -/

/-- One raw ledger transaction as returned by the API: its identifying
hash and the rest of the record (abstracted as a payload). -/
structure RawTx where
  hash : String
  payload : ℕ
deriving DecidableEq, Repr

/-- The duplicate check of `get_wallet_transactions`:
`last_hash and any(tx["hash"] == last_hash for tx in txs)`. -/
def detects (lastHash : Option String) (page : List RawTx) : Bool :=
  match lastHash with
  | some h => page.any (fun t => t.hash = h)
  | none => false

/-- `last_hash = txs[-1]["hash"]` when the page is nonempty
(`if txs:`), else the previous value. -/
def lastHashAfter (page : List RawTx) (lastHash : Option String) : Option String :=
  match page.getLast? with
  | some t => some t.hash
  | none => lastHash

/-- Keys of a Python dict built by successive insertion: order of first
occurrence, one copy each (`seen` holds keys already emitted). -/
def firstOccKeysAux (seen : List String) : List String → List String
  | [] => []
  | h :: t => if seen.contains h then firstOccKeysAux seen t
              else h :: firstOccKeysAux (h :: seen) t

/-- `{tx["hash"]: tx for tx in l}.values()`: Python dict-comprehension merge.
Keys keep the position of their first occurrence; each key's value is the
last record inserted with that key. -/
def dictMerge (l : List RawTx) : List RawTx :=
  (firstOccKeysAux [] (l.map (·.hash))).filterMap
    (fun k => (l.filter (fun t => t.hash = k)).getLast?)

/-- The fetch loop of `get_wallet_transactions`, one recursive step per page
the simulated API returns.  Faithful to the source's order of checks:
the duplicate-hash check runs before the short-page check. -/
def collectLoop (limit : ℕ) (lastHash : Option String) (acc : List RawTx) :
    List (List RawTx) → List RawTx
  | [] => acc
  | txs :: rest =>
    if detects lastHash txs then dictMerge (acc ++ txs)
    else
      if txs.length < limit then acc ++ txs
      else collectLoop limit (lastHashAfter txs lastHash) (acc ++ txs) rest

/-- `get_wallet_transactions`, with the paginated API simulated by the list
of pages it would return at offsets `0, limit, 2·limit, …`. -/
def get_wallet_transactions (limit : ℕ) (pages : List (List RawTx)) : List RawTx :=
  collectLoop limit none [] pages

/-- Modelled from the spec: the collector loop with the two termination
conditions checked in the order §4.1 states them — (a) short page first,
then (b) duplicate-hash.  Used only to compare against the source's
`collectLoop`, which checks (b) first. -/
def collectLoopSpecOrder (limit : ℕ) (lastHash : Option String) (acc : List RawTx) :
    List (List RawTx) → List RawTx
  | [] => acc
  | txs :: rest =>
    if txs.length < limit then acc ++ txs
    else if detects lastHash txs then dictMerge (acc ++ txs)
    else collectLoopSpecOrder limit (lastHashAfter txs lastHash) (acc ++ txs) rest

/-- Modelled from the spec: `get_wallet_transactions` under the spec's
check order. -/
def get_wallet_transactions_spec_order (limit : ℕ) (pages : List (List RawTx)) : List RawTx :=
  collectLoopSpecOrder limit none [] pages

/-- Boolean no-duplicates check on a list of hashes. -/
def nodupB : List String → Bool
  | [] => true
  | h :: t => !t.contains h && nodupB t

/-- Keep the first record seen for each hash, in order (the merge discipline
the spec describes). -/
def keepFirstByHashAux (seen : List String) : List RawTx → List RawTx
  | [] => []
  | t :: rest => if seen.contains t.hash then keepFirstByHashAux seen rest
                 else t :: keepFirstByHashAux (t.hash :: seen) rest

/-- Keep the first record per hash, stable order. -/
def keepFirstByHash (l : List RawTx) : List RawTx := keepFirstByHashAux [] l

/-- Well-formedness of a simulated paginated fetch, mirroring the loop's
consumption of pages: every page that the loop ingests without triggering
duplicate detection is internally duplicate-free and disjoint from what was
already collected.  (Overlap is allowed exactly when the incoming page
contains the previously seen last hash — the window-shift overlap the
collector detects.) -/
def okPagesAux (limit : ℕ) (seen : List String) (lastHash : Option String) :
    List (List RawTx) → Bool
  | [] => true
  | p :: rest =>
    if detects lastHash p then true
    else
      nodupB (p.map (·.hash)) &&
      (p.map (·.hash)).all (fun h => !seen.contains h) &&
      (if p.length < limit then true
       else okPagesAux limit (seen ++ p.map (·.hash)) (lastHashAfter p lastHash) rest)

/-- Well-formed simulated fetch, starting from an empty collection. -/
def okPages (limit : ℕ) (pages : List (List RawTx)) : Bool :=
  okPagesAux limit [] none pages

/-- Hashes identify records: two records of `l` with the same hash are the
same record (the ledger's content-addressing assumption stated in §3). -/
def HashFunctional (l : List RawTx) : Prop :=
  ∀ a ∈ l, ∀ b ∈ l, a.hash = b.hash → a = b

/-- Concrete transaction with hash "a", for witnesses and counterexamples. -/
def txA : RawTx := ⟨"a", 0⟩

/-- Concrete transaction with hash "b". -/
def txB : RawTx := ⟨"b", 0⟩

/-- Concrete transaction with hash "c". -/
def txC : RawTx := ⟨"c", 0⟩

/-! ## Normalizer/Aggregator (`src/data/processor.py`) -/

/-- One row of a raw per-wallet transaction file, as the ledger API returns
it: unix seconds, hash, signed satoshi delta (`result`), post-transaction
balance in satoshis, optional fee, block height. -/
structure RawRow where
  time : ℕ
  hash : String
  result : ℤ
  balance : ℤ
  fee : Option ℤ
  block_height : ℕ
deriving DecidableEq, Repr

/-- One row of the per-transaction `processed` frame built by
`process_wallet_transactions` before daily aggregation. -/
structure PRow where
  wallet_address : String
  timestamp : ℕ
  hash : String
  amount_btc : ℚ
  balance_btc : ℚ
  fee : Option ℚ
  block_height : ℕ
  last_updated : ℕ
  rank : ℕ
  price_usd : Option ℚ
  transaction_value_usd : Option ℚ
  transaction_type : String
  portfolio_pct : Option ℚ
  date : ℕ
deriving DecidableEq, Repr

/-- One DailyAggregate row (`daily_aggregated` in the source), in the
flattened column order of processor.py lines 154-160 plus the re-derived
type/fraction and the date-as-timestamp column. -/
structure DRow where
  wallet_address : String
  rank : ℕ
  first_timestamp : ℕ
  last_timestamp : ℕ
  transactions : String
  amount_btc : ℚ
  balance_btc : ℚ
  total_fee : ℚ
  first_block : ℕ
  last_block : ℕ
  last_updated : ℕ
  price_usd : Option ℚ
  transaction_value_usd : ℚ
  transaction_type : String
  portfolio_pct : Option ℚ
  timestamp : ℕ
deriving DecidableEq, Repr

/-- Rank lookup against the richlist snapshot: first matching row's rank,
or the sentinel 999 when the wallet is absent (also when the richlist is
empty). -/
def walletRank (richlist : List (String × ℕ)) (wallet : String) : ℕ :=
  match richlist.find? (fun p => p.1 = wallet) with
  | some p => p.2
  | none => 999

/-- `'buy' if x > 0 else 'sell' if x < 0 else 'transfer'`. -/
def transactionTypeOf (x : ℚ) : String :=
  if 0 < x then "buy" else if x < 0 then "sell" else "transfer"

/-- Price-table lookup by calendar date; multiple entries for the same
date resolve to the first (processor.py lines 103-109). -/
def priceLookup (price_data : List (ℕ × ℚ)) (d : ℕ) : Option ℚ :=
  (price_data.find? (fun p => p.1 = d)).map (·.2)

/-- The per-transaction stage of `process_wallet_transactions`: satoshi →
BTC conversion (1e-8), price matching by calendar date, fiat value,
type classification, portfolio fraction, rank and `last_updated := now`
(the `datetime.now()` wall clock, passed explicitly). Dates are modelled
as day numbers `time / 86400`. -/
def processedRow (wallet : String) (rank : ℕ) (price_data : List (ℕ × ℚ))
    (now : ℕ) (r : RawRow) : PRow :=
  let amount : ℚ := (r.result : ℚ) / 100000000
  let balance : ℚ := (r.balance : ℚ) / 100000000
  let price := priceLookup price_data (r.time / 86400)
  { wallet_address := wallet
    timestamp := r.time
    hash := r.hash
    amount_btc := amount
    balance_btc := balance
    fee := r.fee.map (fun f => (f : ℚ) / 100000000)
    block_height := r.block_height
    last_updated := now
    rank := rank
    price_usd := price
    transaction_value_usd := price.map (fun p => amount * p)
    transaction_type := transactionTypeOf amount
    portfolio_pct := if balance ≠ 0 then some (|amount| / balance * 100) else none
    date := r.time / 86400 }

/-- Stable insertion into a list sorted by an ℕ-valued key. -/
def insertByKey {α : Type} (key : α → ℕ) (a : α) : List α → List α
  | [] => [a]
  | b :: l => if key a ≤ key b then a :: b :: l else b :: insertByKey key a l

/-- Sort by an ℕ-valued key (`sort_values`). -/
def sortByKey {α : Type} (key : α → ℕ) : List α → List α
  | [] => []
  | a :: l => insertByKey key a (sortByKey key l)

/-- The distinct values of a list of day numbers, first occurrence order. -/
def distinctDatesAux (seen : List ℕ) : List ℕ → List ℕ
  | [] => []
  | h :: t => if seen.contains h then distinctDatesAux seen t
              else h :: distinctDatesAux (h :: seen) t

/-- Distinct day numbers of a list. -/
def distinctDates (l : List ℕ) : List ℕ := distinctDatesAux [] l

/-- pandas mean aggregation over a column with missing values: mean of the
non-null entries, null when there are none. -/
def pandasMean (l : List (Option ℚ)) : Option ℚ :=
  let s := l.reduceOption
  if s.isEmpty then none else some (s.sum / (s.length : ℚ))

/-- One aggregated group of `daily_aggregated` (processor.py lines
141-176): the group is the nonempty run `h :: t` of processed rows sharing
one (wallet, date, rank) key, in timestamp order. -/
def aggGroup (h : PRow) (t : List PRow) : DRow :=
  let g := h :: t
  { wallet_address := h.wallet_address
    rank := h.rank
    first_timestamp := h.timestamp
    last_timestamp := (t.getLastD h).timestamp
    transactions := String.intercalate "," (g.map (·.hash))
    amount_btc := (g.map (·.amount_btc)).sum
    balance_btc := (t.getLastD h).balance_btc
    total_fee := ((g.map (·.fee)).reduceOption).sum
    first_block := h.block_height
    last_block := (t.getLastD h).block_height
    last_updated := (g.map (·.last_updated)).foldl max 0
    price_usd := pandasMean (g.map (·.price_usd))
    transaction_value_usd := ((g.map (·.transaction_value_usd)).reduceOption).sum
    transaction_type := transactionTypeOf ((g.map (·.amount_btc)).sum)
    portfolio_pct :=
      if (t.getLastD h).balance_btc ≠ 0 then
        some (|(g.map (·.amount_btc)).sum| / (t.getLastD h).balance_btc * 100)
      else none
    timestamp := h.date * 86400 }

/-- Aggregate one (possibly empty) group; empty groups never occur. -/
def aggOfGroup : List PRow → Option DRow
  | [] => none
  | h :: t => some (aggGroup h t)

/-- `process_wallet_transactions`: normalize raw rows, sort by timestamp,
group by (wallet, date, rank) — wallet and rank are constant over the run,
so the group key is the date, and pandas sorts the group keys ascending —
aggregate each group, and sort the daily rows by timestamp. -/
def process_wallet_transactions (wallet : String) (richlist : List (String × ℕ))
    (price_data : List (ℕ × ℚ)) (now : ℕ) (raw : List RawRow) : List DRow :=
  let rank := walletRank richlist wallet
  let processed := sortByKey (·.timestamp) (raw.map (processedRow wallet rank price_data now))
  let dates := sortByKey (fun d => d) (distinctDates (processed.map (·.date)))
  let groups := dates.map (fun d => processed.filter (fun p => p.date = d))
  sortByKey (·.timestamp) (groups.filterMap aggOfGroup)

/-- Overwrite a processed row's `last_updated` field. -/
def setLU (c : ℕ) (p : PRow) : PRow := { p with last_updated := c }

/-- Overwrite a daily row's `last_updated` field. -/
def setLUd (c : ℕ) (d : DRow) : DRow := { d with last_updated := c }

/-- Zero out the wall-clock field of a daily row (every other field kept). -/
def stripLU (d : DRow) : DRow := setLUd 0 d

/-- `_load_price_data` (processor.py lines 43-54): the price file content
(`none` = file absent).  A missing file raises (`Except.error`); the run
cannot proceed. -/
def load_price_data : Option (List (ℕ × ℚ)) → Except String (List (ℕ × ℚ))
  | none => Except.error "FileNotFoundError"
  | some rows => Except.ok rows

/-! ## Metrics engine (`src/data/metrics.py`) -/

/-- `SIGNIFICANT_SELL_THRESHOLD = 0.01`. -/
def SIGNIFICANT_SELL_THRESHOLD : ℚ := 1/100

/-- `TRADE_FREQUENCY_THRESHOLD = 10`. -/
def TRADE_FREQUENCY_THRESHOLD : ℚ := 10

/-- `HOLDING_PERIOD_THRESHOLD = 30`. -/
def HOLDING_PERIOD_THRESHOLD : ℤ := 30

/-- The body of the `try` block in `_load_current_btc_price` (metrics.py
lines 22-33): last entry of the price file; a missing file or an empty
frame raises. -/
def loadCurrentBtcPriceCore : Option (List (ℕ × ℚ)) → Except String ℚ
  | none => Except.error "FileNotFoundError"
  | some rows =>
    match rows.getLast? with
    | some r => Except.ok r.2
    | none => Except.error "IndexError"

/-- `_load_current_btc_price`: the `except` clause catches the error, logs
it, and returns 0. -/
def load_current_btc_price (file : Option (List (ℕ × ℚ))) : ℚ :=
  match loadCurrentBtcPriceCore file with
  | Except.ok p => p
  | Except.error _ => 0

/-- `df[df['transaction_type'] == 'buy']`. -/
def buysOf (df : List DRow) : List DRow :=
  df.filter (fun r => r.transaction_type = "buy")

/-- `df[df['transaction_type'] == 'sell']`. -/
def sellsOf (df : List DRow) : List DRow :=
  df.filter (fun r => r.transaction_type = "sell")

/-- `total_money_in = (buys['amount_btc'] * buys['price_usd']).sum()`,
pandas skipping products with a null price. -/
def total_money_in (df : List DRow) : ℚ :=
  (((buysOf df).map (fun r => r.price_usd.map (fun p => r.amount_btc * p))).reduceOption).sum

/-- `total_money_out = (sells['amount_btc'].abs() * sells['price_usd']).sum()`
(0 when there are no sells), pandas skipping products with a null price. -/
def total_money_out (df : List DRow) : ℚ :=
  (((sellsOf df).map (fun r => r.price_usd.map (fun p => |r.amount_btc| * p))).reduceOption).sum

/-- `net_investment = total_money_in - total_money_out`. -/
def net_investment (df : List DRow) : ℚ := total_money_in df - total_money_out df

/-- `current_balance = df.iloc[-1]['balance_btc']` (0 on an empty frame,
which the caller rules out). -/
def current_balance (df : List DRow) : ℚ :=
  match df.getLast? with
  | some r => r.balance_btc
  | none => 0

/-- The `roi_overall` entry of `_calculate_performance_metrics` (metrics.py
lines 112-138): net-investment ROI when there is at least one buy and the
net investment is positive, 0 otherwise. -/
def roi_overall (current_btc_price : ℚ) (df : List DRow) : ℚ :=
  if (buysOf df).isEmpty then 0
  else if 0 < net_investment df then
    (current_balance df * current_btc_price - net_investment df) / net_investment df * 100
  else 0

/-- One row of `sells[sells['portfolio_pct'] >= SIGNIFICANT_SELL_THRESHOLD]`:
a null fraction compares false in pandas, so such rows never pass. -/
def is_significant_sell (r : DRow) : Bool :=
  (r.transaction_type = "sell") &&
  (match r.portfolio_pct with
   | some p => decide (SIGNIFICANT_SELL_THRESHOLD ≤ p)
   | none => false)

/-- `significant_sells_count` of `_analyze_trading_pattern`. -/
def significant_sells_count (df : List DRow) : ℕ :=
  (df.filter is_significant_sell).length

/-- `_determine_trader_type` (metrics.py lines 165-176). -/
def determine_trader_type (trades_per_month : ℚ) (significant_sells : ℕ)
    (activity_days : ℤ) : String :=
  if activity_days < HOLDING_PERIOD_THRESHOLD then "New Wallet"
  else if TRADE_FREQUENCY_THRESHOLD ≤ trades_per_month ∧ 3 ≤ significant_sells then
    "Active Trader"
  else if 1 ≤ significant_sells then "Occasional Trader"
  else "Holder"

/-- A float-valued metrics entry: either NaN or a number (needed because
pandas propagates NaN into stored metric values). -/
inductive FloatVal where
  | nan : FloatVal
  | num : ℚ → FloatVal
deriving DecidableEq, Repr

/-- `portfolio_values = df['balance_btc'] * df['price_usd']`: null price →
null value, one entry per row of the daily history. -/
def portfolioValues (df : List DRow) : List (Option ℚ) :=
  df.map (fun r => r.price_usd.map (fun p => r.balance_btc * p))

/-- pandas sample variance (ddof = 1) of a column with missing values:
defined only when at least two non-null entries exist. -/
def pandasVar (l : List (Option ℚ)) : Option ℚ :=
  let s := l.reduceOption
  if 2 ≤ s.length then
    some (((s.map (fun x => (x - s.sum / (s.length : ℚ))^2)).sum) / ((s.length : ℚ) - 1))
  else none

/-- The `portfolio_value_volatility` entry (metrics.py lines 150-153):
present when the history has more than one row and the mean of the priced
portfolio values is positive; its value is `std/mean*100`, NaN when fewer
than two priced values exist (pandas std of a single value).  `sq` is the
square root used by the float std. -/
def portfolio_value_volatility (sq : ℚ → ℚ) (df : List DRow) : Option FloatVal :=
  let pv := portfolioValues df
  if 1 < pv.length ∧ 0 < (pandasMean pv).getD 0 then
    some (match pandasVar pv, pandasMean pv with
          | some v, some m => FloatVal.num (sq v / m * 100)
          | _, _ => FloatVal.nan)
  else none

/-- `portfolio_values.expanding().max()`: running maximum of the non-null
entries seen so far (null until the first non-null entry). -/
def expandingMaxAux (cur : Option ℚ) : List (Option ℚ) → List (Option ℚ)
  | [] => []
  | v :: rest =>
    let cur' := match cur, v with
      | some m, some x => some (max m x)
      | none, some x => some x
      | c, none => c
    cur' :: expandingMaxAux cur' rest

/-- Running maximum of a value series with missing entries. -/
def expandingMax (l : List (Option ℚ)) : List (Option ℚ) := expandingMaxAux none l

/-- `drawdowns = (portfolio_values - rolling_max) / rolling_max * 100`:
null whenever the value is null or the running maximum is zero (0/0 is
NaN in floats). -/
def drawdownsOf (l : List (Option ℚ)) : List (Option ℚ) :=
  (l.zip (expandingMax l)).map (fun vm =>
    match vm.1, vm.2 with
    | some v, some m => if m ≠ 0 then some ((v - m) / m * 100) else none
    | _, _ => none)

/-- The `max_drawdown_pct` entry (metrics.py lines 156-161): present when
the history has more than one row; `abs(drawdowns.min())`, NaN when every
drawdown is null. -/
def max_drawdown_pct (df : List DRow) : Option FloatVal :=
  let pv := portfolioValues df
  if 1 < pv.length then
    some (match (drawdownsOf pv).reduceOption with
          | [] => FloatVal.nan
          | x :: xs => FloatVal.num |xs.foldl min x|)
  else none

/-- Number of priced days in a daily history. -/
def priced_days_count (df : List DRow) : ℕ :=
  (df.filterMap (·.price_usd)).length

/-- `_save_wallet_metrics`'s summary-table update (metrics.py lines
187-196): drop every row whose `wallet_address` equals the written wallet,
then append the new metrics row.  A missing summary file is the empty
table. -/
def save_wallet_metrics {α : Type} (wallet_address : String) (metrics : α)
    (summary : List (String × α)) : List (String × α) :=
  (summary.filter (fun row => row.1 ≠ wallet_address)) ++ [(wallet_address, metrics)]

/-! ## Concrete inputs for witnesses and counterexamples -/

/-- A raw transaction of +1 BTC on day 0, ending balance 2 BTC. -/
def rawR1 : RawRow := ⟨0, "h1", 100000000, 200000000, none, 1⟩

/-- A raw transaction of −1 BTC on day 1, ending balance 1 BTC. -/
def rawR2 : RawRow := ⟨86400, "h2", -100000000, 100000000, none, 2⟩

/-- A price table with a single day-0 observation. -/
def priceTable1 : List (ℕ × ℚ) := [(0, 100)]

/-- The daily aggregate the pipeline produces from `rawR1` alone with
`priceTable1`, an empty richlist, and clock 0. -/
def dOut1 : DRow :=
  { wallet_address := "w", rank := 999, first_timestamp := 0, last_timestamp := 0,
    transactions := "h1", amount_btc := 1, balance_btc := 2, total_fee := 0,
    first_block := 1, last_block := 1, last_updated := 0, price_usd := some 100,
    transaction_value_usd := 100, transaction_type := "buy",
    portfolio_pct := some 50, timestamp := 0 }

/-- A priced buy day: +1 BTC at 10000, ending balance 1 BTC. -/
def dRow1 : DRow :=
  { wallet_address := "w", rank := 1, first_timestamp := 0, last_timestamp := 0,
    transactions := "h1", amount_btc := 1, balance_btc := 1, total_fee := 0,
    first_block := 1, last_block := 1, last_updated := 0, price_usd := some 10000,
    transaction_value_usd := 10000, transaction_type := "buy",
    portfolio_pct := some 100, timestamp := 0 }

/-- An unpriced transfer day: no movement, balance still 1 BTC. -/
def dRow2 : DRow :=
  { wallet_address := "w", rank := 1, first_timestamp := 86400, last_timestamp := 86400,
    transactions := "h2", amount_btc := 0, balance_btc := 1, total_fee := 0,
    first_block := 2, last_block := 2, last_updated := 0, price_usd := none,
    transaction_value_usd := 0, transaction_type := "transfer",
    portfolio_pct := some 0, timestamp := 86400 }

/-- A priced sell day whose ending balance is zero: its portfolio fraction
is unset. -/
def dRow3 : DRow :=
  { wallet_address := "w", rank := 1, first_timestamp := 172800, last_timestamp := 172800,
    transactions := "h3", amount_btc := -1, balance_btc := 0, total_fee := 0,
    first_block := 3, last_block := 3, last_updated := 0, price_usd := some 9000,
    transaction_value_usd := -9000, transaction_type := "sell",
    portfolio_pct := none, timestamp := 172800 }

/-! ### Collector lemmas -/

theorem contains_iff_mem (l : List String) (a : String) :
    l.contains a = true ↔ a ∈ l := List.elem_iff

theorem nodupB_iff (l : List String) : nodupB l = true ↔ l.Nodup := by
  induction l with
  | nil => simp [nodupB]
  | cons h t ih =>
    simp only [nodupB, Bool.and_eq_true, Bool.not_eq_true', List.nodup_cons, ih]
    constructor
    · rintro ⟨h1, h2⟩
      refine ⟨fun hm => ?_, h2⟩
      rw [(contains_iff_mem t h).2 hm] at h1
      exact Bool.false_ne_true h1.symm
    · rintro ⟨h1, h2⟩
      refine ⟨?_, h2⟩
      by_cases hc : t.contains h = true
      · exact absurd ((contains_iff_mem t h).1 hc) h1
      · simpa using hc

theorem firstOccKeysAux_not_mem_seen {seen : List String} {l : List String} :
    ∀ k ∈ firstOccKeysAux seen l, k ∉ seen := by
  induction l generalizing seen with
  | nil => intro k hk; simp [firstOccKeysAux] at hk
  | cons h t ih =>
    intro k hk
    by_cases hs : seen.contains h
    · rw [firstOccKeysAux, if_pos hs] at hk
      exact ih k hk
    · rw [firstOccKeysAux, if_neg hs] at hk
      rcases List.mem_cons.1 hk with rfl | hk'
      · intro hm
        exact hs ((contains_iff_mem seen k).2 hm)
      · intro hm
        exact @ih (h :: seen) k hk' (List.mem_cons_of_mem _ hm)

theorem firstOccKeysAux_nodup (seen : List String) (l : List String) :
    (firstOccKeysAux seen l).Nodup := by
  induction l generalizing seen with
  | nil => simp [firstOccKeysAux]
  | cons h t ih =>
    by_cases hs : seen.contains h
    · rw [firstOccKeysAux, if_pos hs]; exact ih seen
    · rw [firstOccKeysAux, if_neg hs]
      refine List.nodup_cons.2 ⟨?_, ih (h :: seen)⟩
      intro hmem
      exact firstOccKeysAux_not_mem_seen h hmem (List.mem_cons_self _ _)

theorem firstOccKeysAux_mem {seen : List String} {l : List String} :
    ∀ k ∈ firstOccKeysAux seen l, k ∈ l := by
  induction l generalizing seen with
  | nil => intro k hk; simp [firstOccKeysAux] at hk
  | cons h t ih =>
    intro k hk
    by_cases hs : seen.contains h
    · rw [firstOccKeysAux, if_pos hs] at hk
      exact List.mem_cons_of_mem _ (ih k hk)
    · rw [firstOccKeysAux, if_neg hs] at hk
      rcases List.mem_cons.1 hk with rfl | hk'
      · exact List.mem_cons_self _ _
      · exact List.mem_cons_of_mem _ (ih k hk')

theorem dictMerge_map_hash (l : List RawTx) :
    (dictMerge l).map (·.hash) = firstOccKeysAux [] (l.map (·.hash)) := by
  unfold dictMerge
  generalize hK : firstOccKeysAux [] (l.map (·.hash)) = keys
  have hmem : ∀ k ∈ keys, k ∈ l.map (·.hash) := by
    intro k hk; rw [← hK] at hk; exact firstOccKeysAux_mem k hk
  clear hK
  induction keys with
  | nil => simp
  | cons k ks ih =>
    have hk : k ∈ l.map (·.hash) := hmem k (List.mem_cons_self _ _)
    rcases List.mem_map.1 hk with ⟨t, ht, rfl⟩
    have hne : l.filter (fun x => x.hash = t.hash) ≠ [] := by
      intro hnil
      have : t ∈ l.filter (fun x => x.hash = t.hash) := by
        simp [List.mem_filter, ht]
      rw [hnil] at this; simp at this
    rcases List.getLast?_eq_getLast _ hne with hlast
    have hmemlast := List.getLast_mem hne
    have hhash : (List.getLast (l.filter (fun x => x.hash = t.hash)) hne).hash = t.hash := by
      have := List.mem_filter.1 hmemlast
      simpa using this.2
    simp only [List.filterMap_cons, hlast, List.map_cons, hhash]
    exact congrArg _ (ih (fun k hk => hmem k (List.mem_cons_of_mem _ hk)))

theorem dictMerge_hash_nodup (l : List RawTx) :
    ((dictMerge l).map (·.hash)).Nodup := by
  rw [dictMerge_map_hash]
  exact firstOccKeysAux_nodup [] _

theorem collectLoop_hash_nodup (limit : ℕ) :
    ∀ (pages : List (List RawTx)) (acc : List RawTx) (lastHash : Option String),
      okPagesAux limit (acc.map (·.hash)) lastHash pages = true →
      ((acc.map (·.hash)).Nodup) →
      (((collectLoop limit lastHash acc pages).map (·.hash)).Nodup) := by
  intro pages
  induction pages with
  | nil => intro acc lastHash _ hacc; simpa [collectLoop] using hacc
  | cons p rest ih =>
    intro acc lastHash hok hacc
    by_cases hd : detects lastHash p
    · rw [collectLoop, if_pos hd]
      exact dictMerge_hash_nodup _
    · rw [collectLoop, if_neg hd]
      rw [okPagesAux, if_neg hd] at hok
      simp only [Bool.and_eq_true, List.all_eq_true] at hok
      obtain ⟨⟨hpnodup, hdisj⟩, hrest⟩ := hok
      have hnodupP : (p.map (·.hash)).Nodup := (nodupB_iff _).1 hpnodup
      have happ : ((acc ++ p).map (·.hash)).Nodup := by
        rw [List.map_append, List.nodup_append]
        refine ⟨hacc, hnodupP, ?_⟩
        intro a ha hb
        have := hdisj a hb
        simp only [Bool.not_eq_true'] at this
        have hnc : a ∉ acc.map (·.hash) := by
          intro hmem
          rw [(contains_iff_mem _ a).2 hmem] at this
          simp at this
        exact hnc ha
      by_cases hshort : p.length < limit
      · rw [if_pos hshort]; exact happ
      · rw [if_neg hshort]
        rw [if_neg hshort] at hrest
        refine ih (acc ++ p) (lastHashAfter p lastHash) ?_ happ
        simpa [List.map_append] using hrest

theorem keepFirstByHashAux_eq (l : List RawTx) :
    ∀ seen : List String,
      keepFirstByHashAux seen l =
      (firstOccKeysAux seen (l.map (·.hash))).filterMap
        (fun k => (l.filter (fun t => t.hash = k)).head?) := by
  induction l with
  | nil => intro seen; simp [keepFirstByHashAux, firstOccKeysAux]
  | cons t rest ih =>
    intro seen
    by_cases hs : seen.contains t.hash
    · rw [keepFirstByHashAux, if_pos hs]
      simp only [List.map_cons]
      rw [firstOccKeysAux, if_pos hs, ih seen]
      refine List.filterMap_congr ?_
      intro k hk
      have hkt : k ≠ t.hash := by
        intro h; subst h
        exact firstOccKeysAux_not_mem_seen _ hk ((contains_iff_mem _ _).1 hs)
      rw [List.filter_cons]
      simp only [decide_eq_true_eq]
      rw [if_neg (Ne.symm hkt)]
    · rw [keepFirstByHashAux, if_neg hs]
      simp only [List.map_cons]
      rw [firstOccKeysAux, if_neg hs]
      rw [List.filterMap_cons]
      have hhead : ((t :: rest).filter (fun x => x.hash = t.hash)).head? = some t := by
        rw [List.filter_cons]
        simp
      rw [hhead, ih (t.hash :: seen)]
      apply congrArg
      refine List.filterMap_congr ?_
      intro k hk
      have hkt : k ≠ t.hash := by
        intro h; subst h
        exact firstOccKeysAux_not_mem_seen _ hk (List.mem_cons_self _ _)
      rw [List.filter_cons]
      simp only [decide_eq_true_eq]
      rw [if_neg (Ne.symm hkt)]

theorem head?_eq_getLast?_of_all_eq {l : List RawTx}
    (h : ∀ a ∈ l, ∀ b ∈ l, a = b) : l.head? = l.getLast? := by
  cases l with
  | nil => rfl
  | cons x xs =>
    have hne : x :: xs ≠ [] := by simp
    rw [List.getLast?_eq_getLast _ hne]
    have := h x (List.mem_cons_self _ _) _ (List.getLast_mem hne)
    simp [← this]

theorem dictMerge_eq_keepFirst {l : List RawTx} (h : HashFunctional l) :
    dictMerge l = keepFirstByHash l := by
  rw [keepFirstByHash, keepFirstByHashAux_eq, dictMerge]
  refine List.filterMap_congr ?_
  intro k _
  refine (head?_eq_getLast?_of_all_eq ?_).symm
  intro a ha b hb
  have ha' := List.mem_filter.1 ha
  have hb' := List.mem_filter.1 hb
  refine h a ha'.1 b hb'.1 ?_
  have h1 : a.hash = k := by simpa using ha'.2
  have h2 : b.hash = k := by simpa using hb'.2
  rw [h1, h2]

/-! ### Processor lemmas -/

theorem processedRow_setLU (w : String) (rk : ℕ) (pr : List (ℕ × ℚ)) (now : ℕ)
    (r : RawRow) : processedRow w rk pr now r = setLU now (processedRow w rk pr 0 r) := rfl

theorem insertByKey_map {α β : Type} (keya : α → ℕ) (keyb : β → ℕ) (f : β → α)
    (hf : ∀ x, keya (f x) = keyb x) (a : β) :
    ∀ l : List β, insertByKey keya (f a) (l.map f) = (insertByKey keyb a l).map f := by
  intro l
  induction l with
  | nil => simp [insertByKey]
  | cons b t ih =>
    simp only [List.map_cons, insertByKey, hf]
    by_cases h : keyb a ≤ keyb b
    · rw [if_pos h, if_pos h, List.map_cons, List.map_cons]
    · rw [if_neg h, if_neg h, List.map_cons, ih]

theorem sortByKey_map {α β : Type} (keya : α → ℕ) (keyb : β → ℕ) (f : β → α)
    (hf : ∀ x, keya (f x) = keyb x) :
    ∀ l : List β, sortByKey keya (l.map f) = (sortByKey keyb l).map f := by
  intro l
  induction l with
  | nil => rfl
  | cons b t ih =>
    simp only [List.map_cons, sortByKey, ih]
    exact insertByKey_map keya keyb f hf b _

theorem mem_insertByKey {α : Type} (key : α → ℕ) (a x : α) :
    ∀ l : List α, (x ∈ insertByKey key a l ↔ x = a ∨ x ∈ l) := by
  intro l
  induction l with
  | nil => simp [insertByKey]
  | cons b t ih =>
    simp only [insertByKey]
    by_cases h : key a ≤ key b
    · rw [if_pos h]; simp
    · rw [if_neg h]; simp [ih]; tauto

theorem mem_sortByKey {α : Type} (key : α → ℕ) (x : α) :
    ∀ l : List α, (x ∈ sortByKey key l ↔ x ∈ l) := by
  intro l
  induction l with
  | nil => simp [sortByKey]
  | cons b t ih => simp [sortByKey, mem_insertByKey, ih]

theorem getLastD_map {α β : Type} (f : α → β) :
    ∀ (l : List α) (d : α), (l.map f).getLastD (f d) = f (l.getLastD d) := by
  intro l
  induction l with
  | nil => intro d; rfl
  | cons h t ih => intro d; simp only [List.map_cons, List.getLastD_cons, ih]

theorem foldl_max_all_eq (c : ℕ) :
    ∀ l : List ℕ, (∀ x ∈ l, x = c) → List.foldl max c l = c := by
  intro l
  induction l with
  | nil => intro _; rfl
  | cons h t ih =>
    intro hall
    have hh : h = c := hall h (List.mem_cons_self _ _)
    subst hh
    simp only [List.foldl_cons, max_self]
    exact ih (fun x hx => hall x (List.mem_cons_of_mem _ hx))

theorem setLU_fields (c : ℕ) (p : PRow) :
    (setLU c p).wallet_address = p.wallet_address
    ∧ (setLU c p).timestamp = p.timestamp
    ∧ (setLU c p).hash = p.hash
    ∧ (setLU c p).amount_btc = p.amount_btc
    ∧ (setLU c p).balance_btc = p.balance_btc
    ∧ (setLU c p).fee = p.fee
    ∧ (setLU c p).block_height = p.block_height
    ∧ (setLU c p).last_updated = c
    ∧ (setLU c p).rank = p.rank
    ∧ (setLU c p).price_usd = p.price_usd
    ∧ (setLU c p).transaction_value_usd = p.transaction_value_usd
    ∧ (setLU c p).transaction_type = p.transaction_type
    ∧ (setLU c p).portfolio_pct = p.portfolio_pct
    ∧ (setLU c p).date = p.date :=
  ⟨rfl, rfl, rfl, rfl, rfl, rfl, rfl, rfl, rfl, rfl, rfl, rfl, rfl, rfl⟩

theorem foldl_max_replicate (c : ℕ) : ∀ n : ℕ, List.foldl max c (List.replicate n c) = c := by
  intro n
  induction n with
  | zero => rfl
  | succ k ih => simp only [List.replicate_succ, List.foldl_cons, max_self, ih]

theorem aggGroup_setLU (c : ℕ) (h : PRow) (t : List PRow) :
    aggGroup (setLU c h) (t.map (setLU c)) = setLUd c (aggGroup h t) := by
  have hlast : (t.map (setLU c)).getLastD (setLU c h) = setLU c (t.getLastD h) :=
    getLastD_map (setLU c) t h
  have hmap : ∀ {β : Type} (f : PRow → β),
      (∀ p, f (setLU c p) = f p) →
      (setLU c h :: t.map (setLU c)).map f = (h :: t).map f := by
    intro β f hf
    simp only [List.map_cons, List.map_map, hf]
    refine congrArg _ ?_
    apply List.map_congr_left
    intro x _
    exact hf x
  have hlu : ((setLU c h :: t.map (setLU c)).map (·.last_updated)).foldl max 0 = c := by
    have : (setLU c h :: t.map (setLU c)).map (·.last_updated)
        = c :: t.map (fun _ => c) := by
      simp only [List.map_cons, List.map_map]
      refine congrArg₂ _ rfl ?_
      apply List.map_congr_left
      intro x _
      rfl
    rw [this, List.foldl_cons, Nat.zero_max, List.map_const']
    exact foldl_max_replicate c t.length
  simp only [aggGroup, hlast, hlu,
    hmap (fun x => x.hash) (fun p => rfl),
    hmap (fun x => x.amount_btc) (fun p => rfl),
    hmap (fun x => x.fee) (fun p => rfl),
    hmap (fun x => x.price_usd) (fun p => rfl),
    hmap (fun x => x.transaction_value_usd) (fun p => rfl)]
  rfl

theorem aggOfGroup_setLU (c : ℕ) :
    ∀ g : List PRow, aggOfGroup (g.map (setLU c)) = (aggOfGroup g).map (setLUd c) := by
  intro g
  cases g with
  | nil => rfl
  | cons h t => simp only [List.map_cons, aggOfGroup, Option.map_some', aggGroup_setLU]

theorem process_setLUd (w : String) (rl : List (String × ℕ)) (pr : List (ℕ × ℚ))
    (now : ℕ) (raw : List RawRow) :
    process_wallet_transactions w rl pr now raw
      = (process_wallet_transactions w rl pr 0 raw).map (setLUd now) := by
  simp only [process_wallet_transactions]
  have h1 : raw.map (processedRow w (walletRank rl w) pr now)
      = (raw.map (processedRow w (walletRank rl w) pr 0)).map (setLU now) := by
    rw [List.map_map]
    apply List.map_congr_left
    intro r _
    exact processedRow_setLU w (walletRank rl w) pr now r
  rw [h1]
  rw [sortByKey_map (·.timestamp) (·.timestamp) (setLU now) (fun x => rfl)]
  generalize (sortByKey (·.timestamp)
    (raw.map (processedRow w (walletRank rl w) pr 0))) = S
  have hdates : (S.map (setLU now)).map (·.date) = S.map (·.date) := by
    rw [List.map_map]
    apply List.map_congr_left
    intro x _
    rfl
  rw [hdates]
  generalize sortByKey (fun d => d) (distinctDates (S.map (·.date))) = dates
  have hgroups : dates.map (fun d => (S.map (setLU now)).filter (fun p => p.date = d))
      = (dates.map (fun d => S.filter (fun p => p.date = d))).map
          (fun g => g.map (setLU now)) := by
    rw [List.map_map]
    apply List.map_congr_left
    intro d _
    rw [List.filter_map]
    apply congrArg
    apply List.filter_congr
    intro x _
    rfl
  rw [hgroups]
  rw [List.filterMap_map]
  have hfm : (List.filterMap (aggOfGroup ∘ fun g => g.map (setLU now))
        (dates.map (fun d => S.filter (fun p => p.date = d))))
      = ((dates.map (fun d => S.filter (fun p => p.date = d))).filterMap
          aggOfGroup).map (setLUd now) := by
    rw [List.map_filterMap]
    apply List.filterMap_congr
    intro g _
    exact aggOfGroup_setLU now g
  rw [hfm]
  rw [sortByKey_map (·.timestamp) (·.timestamp) (setLUd now) (fun x => rfl)]

/-! ### Claim C2 -/

/-- C2, counterexample: a paginated fetch whose second page overlaps the
first (both contain hash "a") but does not contain the first page's
last-seen hash "b" slips past the duplicate check, and the collector
returns two records with the same hash. -/
theorem c2_counterexample :
    ¬ (((get_wallet_transactions 2 [[txA, txB], [txA, txC]]).map (·.hash)).Nodup) := by
  decide

/-- C2 (amended): for every simulated paginated fetch in which each page
either triggers the collector's duplicate detection (it contains the
previously seen last hash — the window-shift overlap) or is disjoint from
everything already collected, the returned sequence contains no two records
with the same hash; and the dict-based merge applied to overlapping pages
keeps the first occurrence of each hash in stable order whenever equal
hashes carry equal records. -/
theorem c2_collector_dedup :
    (∀ (limit : ℕ) (pages : List (List RawTx)),
        okPages limit pages = true →
        (((get_wallet_transactions limit pages).map (·.hash)).Nodup))
    ∧ (∀ l : List RawTx, HashFunctional l → dictMerge l = keepFirstByHash l) := by
  constructor
  · intro limit pages hok
    exact collectLoop_hash_nodup limit pages [] none (by simpa [okPages] using hok)
      (by simp)
  · intro l h
    exact dictMerge_eq_keepFirst h

/-- C2, witness: a concrete two-page fetch where the second page contains
the first page's last hash "b"; the collector's output has pairwise
distinct hashes, and the dict merge of the overlap keeps first
occurrences. -/
theorem c2_collector_dedup_witness :
    okPages 2 [[txA, txB], [txB, txC]] = true
    ∧ (((get_wallet_transactions 2 [[txA, txB], [txB, txC]]).map (·.hash)).Nodup)
    ∧ HashFunctional [txA, txB, txB, txC]
    ∧ dictMerge [txA, txB, txB, txC] = keepFirstByHash [txA, txB, txB, txC] :=
  ⟨by decide,
   c2_collector_dedup.1 2 [[txA, txB], [txB, txC]] (by decide),
   by unfold HashFunctional; decide,
   c2_collector_dedup.2 [txA, txB, txB, txC] (by unfold HashFunctional; decide)⟩

/-! ### Claim C3 -/

/-- C3, counterexample: on a short page that also contains the previous
page's last-seen hash, the source collector terminates through the
duplicate-hash branch (merging with dedup, output `[txA, txB]`), not
through the short-page branch as the claim states (which would plainly
append, output `[txA, txB, txB]`): the two check orders are observably
different. -/
theorem c3_counterexample :
    get_wallet_transactions 2 [[txA, txB], [txB]] = [txA, txB]
    ∧ get_wallet_transactions_spec_order 2 [[txA, txB], [txB]] = [txA, txB, txB]
    ∧ get_wallet_transactions 2 [[txA, txB], [txB]]
      ≠ get_wallet_transactions_spec_order 2 [[txA, txB], [txB]] := by
  refine ⟨by decide, by decide, ?_⟩
  decide

/-- C3 (amended): the collector checks its two termination conditions in
the opposite of the spec's order — first (b) whether the previous page's
last-seen hash appears in the incoming page (merge with dedup and stop),
and only then (a) whether the page is shorter than the requested size
(plain append and stop); so a short page that also contains the duplicate
hash terminates via (b) with deduplication. -/
theorem c3_duplicate_check_first :
    ∀ (limit : ℕ) (lastHash : Option String) (acc p : List RawTx)
      (rest : List (List RawTx)),
      (detects lastHash p = true →
        collectLoop limit lastHash acc (p :: rest) = dictMerge (acc ++ p))
      ∧ (detects lastHash p = false → p.length < limit →
        collectLoop limit lastHash acc (p :: rest) = acc ++ p) := by
  intro limit lastHash acc p rest
  constructor
  · intro h
    rw [collectLoop, if_pos h]
  · intro h hlen
    rw [collectLoop, if_neg (by simp [h]), if_pos hlen]

/-- C3, witness: a short page `[txB]` containing the previously seen last
hash "b" terminates through the duplicate branch with a dedup merge. -/
theorem c3_duplicate_check_first_witness :
    detects (some "b") [txB] = true
    ∧ collectLoop 2 (some "b") [txA, txB] [[txB]] = dictMerge ([txA, txB] ++ [txB]) :=
  ⟨by decide,
   (c3_duplicate_check_first 2 (some "b") [txA, txB] [txB] []).1 (by decide)⟩

/-! ### Claim C4 -/

/-- C4, counterexample: normalization stamps every output row with the
wall clock (`last_updated = datetime.now()`), so two runs on identical raw
input, rank and price series, performed at clock 0 and clock 1, produce
different DailyAggregate output — not byte-identical. -/
theorem c4_counterexample :
    (process_wallet_transactions "w" [] priceTable1 0 [rawR1]).map
      (fun d => d.last_updated) = [0]
    ∧ (process_wallet_transactions "w" [] priceTable1 1 [rawR1]).map
      (fun d => d.last_updated) = [1]
    ∧ process_wallet_transactions "w" [] priceTable1 0 [rawR1]
        ≠ process_wallet_transactions "w" [] priceTable1 1 [rawR1] := by
  have h0 : (process_wallet_transactions "w" [] priceTable1 0 [rawR1]).map
      (fun d => d.last_updated) = [0] := by
    norm_num [process_wallet_transactions, processedRow, walletRank, priceLookup,
      sortByKey, insertByKey, distinctDates, distinctDatesAux, aggOfGroup, aggGroup,
      pandasMean, transactionTypeOf, rawR1, priceTable1, List.reduceOption]
  have h1 : (process_wallet_transactions "w" [] priceTable1 1 [rawR1]).map
      (fun d => d.last_updated) = [1] := by
    norm_num [process_wallet_transactions, processedRow, walletRank, priceLookup,
      sortByKey, insertByKey, distinctDates, distinctDatesAux, aggOfGroup, aggGroup,
      pandasMean, transactionTypeOf, rawR1, priceTable1, List.reduceOption]
  refine ⟨h0, h1, fun he => ?_⟩
  have hmap := congrArg (List.map (fun d : DRow => d.last_updated)) he
  rw [h0, h1] at hmap
  simp at hmap

/-- C4 (amended): re-running normalization on identical raw input, rank
and price series produces identical DailyAggregate output in every field
except `last_updated`, which records the wall-clock time of the run; with
the clock held fixed the output is byte-identical. -/
theorem c4_idempotent_modulo_clock :
    ∀ (w : String) (rl : List (String × ℕ)) (pr : List (ℕ × ℚ))
      (raw : List RawRow) (n1 n2 : ℕ),
      (process_wallet_transactions w rl pr n1 raw).map stripLU
        = (process_wallet_transactions w rl pr n2 raw).map stripLU := by
  intro w rl pr raw n1 n2
  rw [process_setLUd w rl pr n1 raw, process_setLUd w rl pr n2 raw,
    List.map_map, List.map_map]
  apply List.map_congr_left
  intro d _
  rfl

/-! ### Claim C5 -/

/-- C5: in every DailyAggregate row the normalizer produces, the portfolio
fraction is unset if and only if the row's ending balance is exactly zero,
and when the ending balance is non-zero the fraction equals
|net amount| / ending balance × 100. -/
theorem c5_portfolio_pct :
    ∀ (w : String) (rl : List (String × ℕ)) (pr : List (ℕ × ℚ)) (now : ℕ)
      (raw : List RawRow) (r : DRow),
      r ∈ process_wallet_transactions w rl pr now raw →
      ((r.portfolio_pct = none ↔ r.balance_btc = 0)
       ∧ (r.balance_btc ≠ 0 →
           r.portfolio_pct = some (|r.amount_btc| / r.balance_btc * 100))) := by
  intro w rl pr now raw r hr
  simp only [process_wallet_transactions] at hr
  rw [mem_sortByKey] at hr
  rcases List.mem_filterMap.1 hr with ⟨g, _, hagg⟩
  cases g with
  | nil => simp [aggOfGroup] at hagg
  | cons h t =>
    simp only [aggOfGroup, Option.some.injEq] at hagg
    subst hagg
    by_cases hb : (t.getLastD h).balance_btc = 0
    · constructor
      · simp [aggGroup, hb]
      · intro hb2
        exact absurd (by simpa [aggGroup] using hb) hb2
    · constructor
      · simp [aggGroup, hb]
      · intro _
        have hb' : (t.getLast?.getD h).balance_btc ≠ 0 := by
          simpa [List.getLastD_eq_getLast?] using hb
        simp [aggGroup, hb, hb']

/-- C5, witness: the concrete run on `rawR1` produces the row `dOut1`,
whose fraction is set (balance 2 ≠ 0) and equals |1|/2·100 = 50. -/
theorem c5_portfolio_pct_witness :
    dOut1 ∈ process_wallet_transactions "w" [] priceTable1 0 [rawR1]
    ∧ (dOut1.portfolio_pct = none ↔ dOut1.balance_btc = 0)
    ∧ (dOut1.balance_btc ≠ 0 →
        dOut1.portfolio_pct = some (|dOut1.amount_btc| / dOut1.balance_btc * 100)) := by
  have heval : process_wallet_transactions "w" [] priceTable1 0 [rawR1] = [dOut1] := by
    norm_num [process_wallet_transactions, processedRow, walletRank, priceLookup,
      sortByKey, insertByKey, distinctDates, distinctDatesAux, aggOfGroup, aggGroup,
      pandasMean, transactionTypeOf, rawR1, priceTable1, dOut1, List.reduceOption,
      String.intercalate, List.intersperse, List.filterMap_cons, String.intercalate.go]
  have hmem : dOut1 ∈ process_wallet_transactions "w" [] priceTable1 0 [rawR1] := by
    rw [heval]
    exact List.mem_cons_self _ _
  exact ⟨hmem, (c5_portfolio_pct "w" [] priceTable1 0 [rawR1] dOut1 hmem).1,
    (c5_portfolio_pct "w" [] priceTable1 0 [rawR1] dOut1 hmem).2⟩

/-! ### Claim C1 -/

/-- C1: for every daily history with at least one buy day, the metrics
engine's ROI is `(current value − net investment) / net investment × 100`
exactly when the net investment (Σ buy·price − Σ |sell|·price over priced
days) is positive, and exactly 0 whenever the net investment is ≤ 0 —
never negative or undefined. -/
theorem c1_roi_overall :
    ∀ (df : List DRow) (cp : ℚ),
      buysOf df ≠ [] →
      ((0 < net_investment df →
          roi_overall cp df
            = (current_balance df * cp - net_investment df)
                / net_investment df * 100)
       ∧ (net_investment df ≤ 0 → roi_overall cp df = 0)) := by
  intro df cp hb
  have hne : ¬((buysOf df).isEmpty = true) := by
    simp [List.isEmpty_iff, hb]
  constructor
  · intro hpos
    rw [roi_overall, if_neg hne, if_pos hpos]
  · intro hnp
    rw [roi_overall, if_neg hne, if_neg (not_lt.2 hnp)]

/-- C1, witness: the spec's worked example — one buy of 1 BTC at 10000,
no sells, current balance 1 BTC, current price 12000 ⇒ net investment
10000 and ROI 20%. -/
theorem c1_roi_overall_witness :
    buysOf [dRow1] ≠ []
    ∧ 0 < net_investment [dRow1]
    ∧ roi_overall 12000 [dRow1]
        = (current_balance [dRow1] * 12000 - net_investment [dRow1])
            / net_investment [dRow1] * 100
    ∧ roi_overall 12000 [dRow1] = 20 := by
  have hb : buysOf [dRow1] ≠ [] := by
    simp [buysOf, dRow1, List.filter_cons, List.filter_nil]
  have hni : net_investment [dRow1] = 10000 := by
    simp [net_investment, total_money_in, total_money_out, buysOf, sellsOf,
      dRow1, List.reduceOption, List.filter_cons, List.filter_nil,
      List.filterMap_cons]
  have hroi := (c1_roi_overall [dRow1] 12000 hb).1 (by rw [hni]; norm_num)
  refine ⟨hb, by rw [hni]; norm_num, hroi, ?_⟩
  rw [hroi, hni]
  norm_num [current_balance, dRow1]

/-! ### Claim C6 -/

/-- C6: trader classification precedence — a span below the 30-day
threshold yields "New Wallet" regardless of the other metrics; otherwise
frequency ≥ 10 together with ≥ 3 significant sells yields "Active Trader";
otherwise ≥ 1 significant sell yields "Occasional Trader"; otherwise
"Holder".  A 10-day span is "New Wallet" for every frequency and
significant-sell count. -/
theorem c6_trader_type_precedence :
    ∀ (tpm : ℚ) (sig : ℕ) (days : ℤ),
      (days < 30 → determine_trader_type tpm sig days = "New Wallet")
      ∧ (30 ≤ days → 10 ≤ tpm → 3 ≤ sig →
          determine_trader_type tpm sig days = "Active Trader")
      ∧ (30 ≤ days → (tpm < 10 ∨ sig < 3) → 1 ≤ sig →
          determine_trader_type tpm sig days = "Occasional Trader")
      ∧ (30 ≤ days → (tpm < 10 ∨ sig < 3) → sig = 0 →
          determine_trader_type tpm sig days = "Holder")
      ∧ determine_trader_type tpm sig 10 = "New Wallet" := by
  intro tpm sig days
  have hsplit : ∀ d : ℤ, d < 30 → determine_trader_type tpm sig d = "New Wallet" := by
    intro d hd
    rw [determine_trader_type, HOLDING_PERIOD_THRESHOLD, if_pos hd]
  have hno : ∀ (h2 : tpm < 10 ∨ sig < 3),
      ¬(TRADE_FREQUENCY_THRESHOLD ≤ tpm ∧ 3 ≤ sig) := by
    intro h2 hc
    rcases h2 with h | h
    · rw [TRADE_FREQUENCY_THRESHOLD] at hc
      exact absurd hc.1 (not_le.2 h)
    · exact absurd hc.2 (by omega)
  refine ⟨hsplit days, ?_, ?_, ?_, hsplit 10 (by norm_num)⟩
  · intro h1 h2 h3
    rw [determine_trader_type, HOLDING_PERIOD_THRESHOLD, if_neg (not_lt.2 h1),
      if_pos ⟨by rw [TRADE_FREQUENCY_THRESHOLD]; exact h2, h3⟩]
  · intro h1 h2 h3
    rw [determine_trader_type, HOLDING_PERIOD_THRESHOLD, if_neg (not_lt.2 h1),
      if_neg (hno h2), if_pos h3]
  · intro h1 h2 h3
    rw [determine_trader_type, HOLDING_PERIOD_THRESHOLD, if_neg (not_lt.2 h1),
      if_neg (hno h2), if_neg (by omega)]

/-- C6, witness: a 10-day-old wallet with 20 trades per month and 5
significant sells is still "New Wallet". -/
theorem c6_trader_type_precedence_witness :
    ((10 : ℤ) < 30) ∧ determine_trader_type 20 5 10 = "New Wallet" :=
  ⟨by norm_num, (c6_trader_type_precedence 20 5 10).1 (by norm_num)⟩

/-! ### Claim C7 -/

/-- C7: saving one wallet's metrics upserts exactly its row in the summary
table: processing A, then B, then A again with changed metrics leaves
exactly the rows [(B, ·), (A, latest)]; in general the rows for every
other address are unchanged and the written address maps to exactly the
new metrics row. -/
theorem c7_summary_upsert :
    ∀ (α : Type) (a b : String) (m1 m2 mb : α) (s : List (String × α))
      (addr : String) (m : α),
      (a ≠ b →
        save_wallet_metrics a m2 (save_wallet_metrics b mb
          (save_wallet_metrics a m1 [])) = [(b, mb), (a, m2)])
      ∧ ((save_wallet_metrics addr m s).filter (fun row => row.1 ≠ addr)
          = s.filter (fun row => row.1 ≠ addr))
      ∧ ((save_wallet_metrics addr m s).filter (fun row => row.1 = addr)
          = [(addr, m)]) := by
  intro α a b m1 m2 mb s addr m
  refine ⟨?_, ?_, ?_⟩
  · intro hab
    simp [save_wallet_metrics, hab, Ne.symm hab]
  · rw [save_wallet_metrics, List.filter_append, List.filter_filter]
    have h1 : (List.filter (fun row : String × α => row.1 ≠ addr)
        [(addr, m)]) = [] := by simp
    rw [h1, List.append_nil]
    apply List.filter_congr
    intro x _
    simp
  · rw [save_wallet_metrics, List.filter_append, List.filter_filter]
    have h1 : (List.filter (fun row : String × α =>
        decide (row.1 = addr) && decide (row.1 ≠ addr)) s) = [] := by
      rw [List.filter_eq_nil_iff]
      intro x _
      by_cases hx : x.1 = addr <;> simp [hx]
    rw [h1, List.nil_append]
    simp

/-- C7, witness: the A-then-B-then-A scenario with concrete metrics values
1, 3 and 2. -/
theorem c7_summary_upsert_witness :
    ("A" : String) ≠ "B"
    ∧ save_wallet_metrics "A" 2 (save_wallet_metrics "B" 3
        (save_wallet_metrics "A" 1 ([] : List (String × ℕ)))) = [("B", 3), ("A", 2)] :=
  ⟨by decide, (c7_summary_upsert ℕ "A" "B" 1 2 3 [] "A" 0).1 (by decide)⟩

/-! ### Claim C8 -/

/-- C8, counterexample: a daily history with two rows of which only one is
priced — the code gates both metrics on the row count (and, for
volatility, the mean), not on the number of priced days, so both entries
are present even though only one priced day exists. -/
theorem c8_counterexample :
    priced_days_count [dRow1, dRow2] = 1
    ∧ (max_drawdown_pct [dRow1, dRow2]).isSome = true
    ∧ (portfolio_value_volatility id [dRow1, dRow2]).isSome = true := by
  refine ⟨?_, ?_, ?_⟩ <;>
    norm_num [priced_days_count, max_drawdown_pct, portfolio_value_volatility,
      portfolioValues, pandasMean, pandasVar, drawdownsOf, expandingMax,
      expandingMaxAux, dRow1, dRow2, List.reduceOption, List.filterMap_cons]

/-- C8 (amended): presence of the two metrics is decided by row count, not
priced-day count — max drawdown is present iff the history has more than
one row; volatility is present iff the history has more than one row and
the mean of the priced portfolio values is positive.  (Two priced days do
guarantee a present drawdown, since they force more than one row.) -/
theorem c8_volatility_drawdown_presence :
    ∀ (df : List DRow) (sq : ℚ → ℚ),
      ((max_drawdown_pct df).isSome = true ↔ 1 < df.length)
      ∧ ((portfolio_value_volatility sq df).isSome = true ↔
          (1 < df.length ∧ 0 < (pandasMean (portfolioValues df)).getD 0))
      ∧ (2 ≤ priced_days_count df → (max_drawdown_pct df).isSome = true) := by
  intro df sq
  have hlen : (portfolioValues df).length = df.length := List.length_map _ _
  have hdd : (max_drawdown_pct df).isSome = true ↔ 1 < df.length := by
    rw [max_drawdown_pct]
    by_cases h : 1 < (portfolioValues df).length
    · rw [if_pos h]
      simp only [Option.isSome_some, true_iff]
      rw [← hlen]; exact h
    · rw [if_neg h]
      simp only [Option.isSome_none, Bool.false_eq_true, false_iff]
      rw [← hlen]; exact h
  refine ⟨hdd, ?_, ?_⟩
  · rw [portfolio_value_volatility]
    by_cases h : 1 < (portfolioValues df).length ∧ 0 < (pandasMean (portfolioValues df)).getD 0
    · rw [if_pos h]
      simp only [Option.isSome_some, true_iff]
      rw [← hlen]; exact h
    · rw [if_neg h]
      simp only [Option.isSome_none, Bool.false_eq_true, false_iff]
      rw [← hlen]; exact h
  · intro h2
    rw [hdd]
    have hle : priced_days_count df ≤ df.length := by
      rw [priced_days_count]
      exact List.length_filterMap_le _ _
    omega

/-- C8, witness: two priced days (`dRow1`, `dRow3`) force more than one
row, so the max drawdown entry is present. -/
theorem c8_volatility_drawdown_presence_witness :
    2 ≤ priced_days_count [dRow1, dRow3]
    ∧ (max_drawdown_pct [dRow1, dRow3]).isSome = true :=
  ⟨by simp [priced_days_count, dRow1, dRow3],
   (c8_volatility_drawdown_presence [dRow1, dRow3] id).2.2
     (by simp [priced_days_count, dRow1, dRow3])⟩

/-! ### Claim C9 -/

/-- C9, counterexample: on a missing price file the metrics engine's
current-price loader does not propagate the error its `try` body raises:
it catches it and substitutes the default value 0. -/
theorem c9_counterexample :
    loadCurrentBtcPriceCore none = Except.error "FileNotFoundError"
    ∧ load_current_btc_price none = 0 :=
  ⟨rfl, rfl⟩

/-- C9 (amended): only the normalizer's price-table load fails the run on
a missing price file; the metrics engine's current-price load catches the
error and returns 0, letting the run proceed with a zero reference
price. -/
theorem c9_price_file_handling :
    (load_price_data none = Except.error "FileNotFoundError")
    ∧ (∀ rows, load_price_data (some rows) = Except.ok rows)
    ∧ (loadCurrentBtcPriceCore none = Except.error "FileNotFoundError")
    ∧ (∀ f, loadCurrentBtcPriceCore f = Except.error "FileNotFoundError" →
        load_current_btc_price f = 0) := by
  refine ⟨rfl, fun rows => rfl, rfl, fun f hf => ?_⟩
  rw [load_current_btc_price, hf]

/-- C9, witness: the amended characterization applied to the missing
file. -/
theorem c9_price_file_handling_witness :
    loadCurrentBtcPriceCore none = Except.error "FileNotFoundError"
    ∧ load_current_btc_price none = 0 ∧ load_price_data none ≠ Except.ok [] :=
  ⟨rfl, c9_price_file_handling.2.2.2 none rfl, by
    rw [c9_price_file_handling.1]
    intro h
    exact Except.noConfusion h⟩

/-! ### Claim C10 -/

/-- C10: a sell day with an unset portfolio fraction is never a
significant sell (the threshold comparison against a null is false in
pandas), a history whose sell days all have unset fractions has
significant-sell count 0, and a zero significant-sell count can never
produce an "Active Trader" or "Occasional Trader" classification. -/
theorem c10_unset_fraction_not_significant :
    ∀ (df : List DRow) (r : DRow) (tpm : ℚ) (days : ℤ),
      (r.portfolio_pct = none → is_significant_sell r = false)
      ∧ ((∀ x ∈ df, x.transaction_type = "sell" → x.portfolio_pct = none) →
          significant_sells_count df = 0)
      ∧ determine_trader_type tpm 0 days ≠ "Active Trader"
      ∧ determine_trader_type tpm 0 days ≠ "Occasional Trader" := by
  intro df r tpm days
  have hdet : ∀ w : String, w = "New Wallet" ∨ w = "Holder" →
      w ≠ "Active Trader" ∧ w ≠ "Occasional Trader" := by
    rintro w (rfl | rfl) <;> exact ⟨by decide, by decide⟩
  have hval : determine_trader_type tpm 0 days = "New Wallet"
      ∨ determine_trader_type tpm 0 days = "Holder" := by
    rw [determine_trader_type]
    by_cases hd : days < HOLDING_PERIOD_THRESHOLD
    · rw [if_pos hd]; exact Or.inl rfl
    · rw [if_neg hd, if_neg (fun hc => by omega),
        if_neg (by omega)]
      exact Or.inr rfl
  refine ⟨?_, ?_, (hdet _ hval).1, (hdet _ hval).2⟩
  · intro h
    simp [is_significant_sell, h]
  · intro hall
    rw [significant_sells_count, List.length_eq_zero, List.filter_eq_nil_iff]
    intro x hx
    by_cases ht : x.transaction_type = "sell"
    · have hnone := hall x hx ht
      simp [is_significant_sell, hnone]
    · simp [is_significant_sell, ht]

/-- C10, witness: the zero-balance sell day `dRow3` is not significant,
a one-row history of it counts zero significant sells, and with zero
significant sells an old, hyperactive wallet is still not an active or
occasional trader. -/
theorem c10_unset_fraction_not_significant_witness :
    dRow3.portfolio_pct = none
    ∧ is_significant_sell dRow3 = false
    ∧ significant_sells_count [dRow3] = 0
    ∧ determine_trader_type 50 0 100 ≠ "Active Trader" := by
  have h := c10_unset_fraction_not_significant [dRow3] dRow3 50 100
  have hall : ∀ x ∈ [dRow3], x.transaction_type = "sell" → x.portfolio_pct = none := by
    intro x hx ht
    rw [List.mem_singleton] at hx
    rw [hx]
    rfl
  exact ⟨rfl, h.1 rfl, h.2.1 hall, h.2.2.1⟩

end WhaleWatcher
